import Mathlib

/-
Verification of the pynlpl snapshot: `formats/moses.py` (PhraseTable trie)
and `statistics.py` (FrequencyList, Distribution).

Conventions of the shallow embedding:
  - Python dicts are modelled as association lists (`alookup` / `aset` mirror
    `d[k]` reads and `d[k] = v` writes; keys are unique in every reachable state).
  - Python floats are modelled as rationals (`Rat`).
  - Python exceptions are modelled with `Option` (for code whose caller only
    observes success/failure) or `Except PyErr` (where the exception class matters).
  - Python strings are modelled as `String`; character-level operations
    (`split`, `strip`, `lower`, `count`) are reimplemented structurally on
    `String.data` so that they evaluate inside the kernel.
-/

/-- The Python exception classes raised by the modelled code. `nameError` also
stands for its subclass `UnboundLocalError`. -/
inductive PyErr where
  | keyError
  | attributeError
  | nameError
  | valueError
  | typeError
  | indexError
  | zeroDivisionError
  deriving DecidableEq

/-- Read `m[k]` from an association list modelling a Python dict. -/
def alookup {α β : Type} [DecidableEq α] : List (α × β) → α → Option β
  | [], _ => none
  | (k, v) :: m, x => if k = x then some v else alookup m x

/-- Write `m[k] = v` on an association list modelling a Python dict:
replace in place if the key is present, otherwise add the binding. -/
def aset {α β : Type} [DecidableEq α] : List (α × β) → α → β → List (α × β)
  | [], x, v => [(x, v)]
  | (k, w) :: m, x, v => if k = x then (k, v) :: m else (k, w) :: aset m x v

/-! ### Character-level string helpers (Python `str` methods) -/

/-- Is `sep` a prefix of the second list? -/
def isPrefixL : List Char → List Char → Bool
  | [], _ => true
  | _ :: _, [] => false
  | a :: as, b :: bs => a = b && isPrefixL as bs

/-- Worker for `pySplit`, with explicit fuel so that the recursion is
structural (the fuel never runs out when it starts at `s.length + 1`). -/
def splitGo (sep : List Char) : Nat → List Char → List Char → List (List Char)
  | 0, s, acc => [acc.reverse ++ s]
  | _ + 1, [], acc => [acc.reverse]
  | n + 1, c :: rest, acc =>
    if isPrefixL sep (c :: rest) then
      acc.reverse :: splitGo sep n (List.drop (sep.length - 1) rest) []
    else
      splitGo sep n rest (c :: acc)

/-- Python `s.split(sep)` for a non-empty separator: split on every
non-overlapping occurrence of `sep`, left to right. -/
def pySplit (s sep : String) : List String :=
  (splitGo sep.data (s.data.length + 1) s.data []).map String.mk

/-- Python `s.strip()`: remove leading and trailing whitespace. -/
def pyStrip (s : String) : String :=
  String.mk (((s.data.dropWhile Char.isWhitespace).reverse.dropWhile Char.isWhitespace).reverse)

/-- Python `s.lower()`. -/
def pyLower (s : String) : String := String.mk (s.data.map Char.toLower)

/-- Python `s.count(sub)`: number of non-overlapping occurrences of `sub`. -/
def pyCountSub (s sub : String) : Nat :=
  (splitGo sub.data (s.data.length + 1) s.data []).length - 1

/-! ### `formats/moses.py`: the PhraseTable trie -/

/-- A translation record: the tuple `(target, Pst, Pts, null_alignments)`
appended to a terminal slot by `PhraseTable.append`. -/
structure TransRec where
  target : List String
  Pst : Rat
  Pts : Rat
  null_alignments : Nat
  deriving DecidableEq

/-- A value stored in the nested-dict trie of `PhraseTable.phrasetable`:
under a word key the value is a child dict, and under the reserved key `""`
it is the list of translation records of a terminal slot.  (The source uses
one untyped dict for both; this sum type records which of the two shapes a
value has.) -/
inductive Val where
  | dict : List (String × Val) → Val
  | recs : List TransRec → Val

/-- The body of `PhraseTable.append`: walk `source` word by word, creating
empty child dicts for unseen words, and append `r` to the terminal list under
`""` at the final node.  Python raises (`TypeError` on indexing a list with a
string, `AttributeError` on `dict.append`) when the walk or the terminal step
runs into a value of the wrong shape; those paths return `none`. -/
def appendWords (r : TransRec) : List String → List (String × Val) → Option (List (String × Val))
  | [], m =>
    match alookup m "" with
    | some (Val.recs l) => some (aset m "" (Val.recs (l ++ [r])))
    | some (Val.dict _) => none
    | none => some (aset m "" (Val.recs [r]))
  | w :: ws, m =>
    match alookup m w with
    | some (Val.recs _) => none
    | some (Val.dict c) => (appendWords r ws c).map (fun c2 => aset m w (Val.dict c2))
    | none => (appendWords r ws []).map (fun c2 => aset m w (Val.dict c2))

/-- The body of `PhraseTable.__contains__`: walk `phrase` word by word
(returning `false` as soon as a word is missing — membership tests on a
record list are also `False` in Python, so running into a list mid-walk or at
the end gives `false`), then test `"" in d`. -/
def containsWords : List String → List (String × Val) → Bool
  | [], m => (alookup m "").isSome
  | w :: ws, m =>
    match alookup m w with
    | some (Val.dict c) => containsWords ws c
    | some (Val.recs _) => false
    | none => false

/-- The body of `PhraseTable.__getitem__`: same walk as `__contains__`, with
`KeyError` (here `none`) when a word is missing or the final node has no `""`
entry; otherwise it returns whatever `d[""]` holds. -/
def getWords : List String → List (String × Val) → Option Val
  | [], m => alookup m ""
  | w :: ws, m =>
    match alookup m w with
    | some (Val.dict c) => getWords ws c
    | some (Val.recs _) => none
    | none => none

/-- In-memory phrase table: the `phrasetable` attribute. -/
structure PhraseTable where
  phrasetable : List (String × Val)

/-- `PhraseTable.append(source, target, Pst, Pts, null_alignments)`. -/
def PhraseTable.append (pt : PhraseTable) (source target : List String)
    (Pst Pts : Rat) (null_alignments : Nat) : Option PhraseTable :=
  (appendWords ⟨target, Pst, Pts, null_alignments⟩ source pt.phrasetable).map PhraseTable.mk

/-- `PhraseTable.__contains__(phrase)`. -/
def PhraseTable.contains (pt : PhraseTable) (phrase : List String) : Bool :=
  containsWords phrase pt.phrasetable

/-- `PhraseTable.__getitem__(phrase)` (`None` = `KeyError`). -/
def PhraseTable.getitem (pt : PhraseTable) (phrase : List String) : Option Val :=
  getWords phrase pt.phrasetable

/-- Raw fold of `appendWords` over a list of `(source, record)` insertions,
starting from the node mapping `m`. -/
def buildFrom (m : List (String × Val)) (I : List (List String × TransRec)) :
    Option (List (String × Val)) :=
  I.foldlM (fun acc pr => appendWords pr.2 pr.1 acc) m

/-- A fresh `PhraseTable` (the constructor starts with `self.phrasetable = {}`)
after the given sequence of `append` calls; `none` if any call raised. -/
def buildTable (I : List (List String × TransRec)) : Option PhraseTable :=
  I.foldlM
    (fun pt pr => pt.append pr.1 pr.2.target pr.2.Pst pr.2.Pts pr.2.null_alignments)
    ⟨[]⟩

/-- The translation records among the insertions `I` whose source phrase is
exactly `q`, in insertion order. -/
def recordsFor (q : List String) (I : List (List String × TransRec)) : List TransRec :=
  (I.filter (fun pr => decide (pr.1 = q))).map (fun pr => pr.2)

/-- The record list held by the node reached by `q`, if the walk of
`__getitem__` ends at a record list (the shape a terminal slot has). -/
def recsAt (q : List String) (m : List (String × Val)) : Option (List TransRec) :=
  match getWords q m with
  | some (Val.recs l) => some l
  | _ => none

/-- Contents of an optional record list, the empty list when absent. -/
def optRecs : Option (List TransRec) → List TransRec
  | some l => l
  | none => []

example :
    buildFrom [] [([""], ⟨["x"], 0, 0, 0⟩)]
      = some [("", Val.dict [("", Val.recs [⟨["x"], 0, 0, 0⟩])])] := rfl

example : containsWords [] [("", Val.dict [("", Val.recs [⟨["x"], 0, 0, 0⟩])])] = true := rfl

example :
    buildFrom [] [(["le", "chat"], ⟨["the", "cat"], 0, 0, 0⟩),
                  (["le", "chat"], ⟨["the", "kitten"], 0, 0, 0⟩)]
      = some [("le", Val.dict [("chat", Val.dict
          [("", Val.recs [⟨["the", "cat"], 0, 0, 0⟩, ⟨["the", "kitten"], 0, 0, 0⟩])])])] := rfl

/-! ### Association list lemmas -/

theorem alookup_aset_self {α β : Type} [DecidableEq α] (m : List (α × β)) (k : α) (v : β) :
    alookup (aset m k v) k = some v := by
  induction m with
  | nil => simp [aset, alookup]
  | cons kv m ih =>
    obtain ⟨k0, w⟩ := kv
    by_cases h : k0 = k
    · subst h; simp [aset, alookup]
    · simp [aset, alookup, h, ih]

theorem alookup_aset_ne {α β : Type} [DecidableEq α] (m : List (α × β)) (k x : α) (v : β)
    (h : x ≠ k) : alookup (aset m k v) x = alookup m x := by
  induction m with
  | nil =>
    simp only [aset, alookup]
    rw [if_neg (fun hh => h hh.symm)]
  | cons kv m ih =>
    obtain ⟨k0, w⟩ := kv
    by_cases h0 : k0 = k
    · subst h0
      simp only [aset, if_pos rfl, alookup]
      rw [if_neg (fun hh => h hh.symm), if_neg (fun hh => h hh.symm)]
    · simp only [aset, if_neg h0, alookup, ih]

theorem getWords_nil (q : List String) : getWords q [] = none := by
  cases q <;> simp [getWords, alookup]

theorem recsAt_nil (q : List String) : recsAt q [] = none := by
  simp [recsAt, getWords_nil]

/-! ### How one `append` changes the trie, as seen by `__getitem__` -/

/-- After a successful `appendWords r p m`, the record list reached by a query
`q` is unchanged unless `q = p`, in which case `r` is appended to it (an
absent list counts as empty).  This holds for arbitrary phrases, including
ones containing the empty-string word. -/
theorem recsAt_appendWords (r : TransRec) :
    ∀ (p : List String) (m m' : List (String × Val)),
      appendWords r p m = some m' →
      ∀ q : List String,
        recsAt q m' = if q = p then some (optRecs (recsAt p m) ++ [r]) else recsAt q m := by
  intro p
  induction p with
  | nil =>
    intro m m' h q
    cases hl : alookup m "" with
    | none =>
      simp only [appendWords, hl] at h
      injection h with h
      subst h
      cases q with
      | nil =>
        rw [if_pos rfl]
        simp [recsAt, getWords, alookup_aset_self, hl, optRecs]
      | cons u us =>
        rw [if_neg (by simp)]
        by_cases hu : u = ""
        · subst hu
          simp [recsAt, getWords, alookup_aset_self, hl]
        · simp [recsAt, getWords, alookup_aset_ne _ _ _ _ hu]
    | some v =>
      cases v with
      | dict c => simp [appendWords, hl] at h
      | recs l =>
        simp only [appendWords, hl] at h
        injection h with h
        subst h
        cases q with
        | nil =>
          rw [if_pos rfl]
          simp [recsAt, getWords, alookup_aset_self, hl, optRecs]
        | cons u us =>
          rw [if_neg (by simp)]
          by_cases hu : u = ""
          · subst hu
            simp [recsAt, getWords, alookup_aset_self, hl]
          · simp [recsAt, getWords, alookup_aset_ne _ _ _ _ hu]
  | cons w ws ih =>
    intro m m' h q
    cases hl : alookup m w with
    | none =>
      simp only [appendWords, hl] at h
      cases hc : appendWords r ws [] with
      | none => simp [hc] at h
      | some c2 =>
        simp only [hc, Option.map_some'] at h
        injection h with h
        subst h
        have hIH := ih [] c2 hc
        cases q with
        | nil =>
          rw [if_neg (by simp)]
          by_cases hw : w = ""
          · subst hw
            simp [recsAt, getWords, alookup_aset_self, hl]
          · simp [recsAt, getWords, alookup_aset_ne _ _ _ _ (fun hh => hw hh.symm)]
        | cons u us =>
          by_cases hu : u = w
          · subst hu
            by_cases hq : us = ws
            · subst hq
              rw [if_pos rfl]
              have h1 := hIH us
              rw [if_pos rfl] at h1
              simp only [recsAt_nil, optRecs] at h1
              simp only [recsAt, getWords, alookup_aset_self, hl] at h1 ⊢
              simp [h1, optRecs]
            · rw [if_neg (by simp [hq])]
              have h1 := hIH us
              rw [if_neg hq] at h1
              rw [recsAt_nil] at h1
              simp only [recsAt, getWords, alookup_aset_self, hl] at h1 ⊢
              simp [h1]
          · rw [if_neg (by simp [hu])]
            simp [recsAt, getWords, alookup_aset_ne _ _ _ _ hu]
    | some v =>
      cases v with
      | recs l => simp [appendWords, hl] at h
      | dict c =>
        simp only [appendWords, hl] at h
        cases hc : appendWords r ws c with
        | none => simp [hc] at h
        | some c2 =>
          simp only [hc, Option.map_some'] at h
          injection h with h
          subst h
          have hIH := ih c c2 hc
          cases q with
          | nil =>
            rw [if_neg (by simp)]
            by_cases hw : w = ""
            · subst hw
              simp [recsAt, getWords, alookup_aset_self, hl]
            · simp [recsAt, getWords, alookup_aset_ne _ _ _ _ (fun hh => hw hh.symm)]
          | cons u us =>
            by_cases hu : u = w
            · subst hu
              by_cases hq : us = ws
              · subst hq
                rw [if_pos rfl]
                have h1 := hIH us
                rw [if_pos rfl] at h1
                simp only [recsAt, getWords, alookup_aset_self, hl] at h1 ⊢
                simp [h1]
              · rw [if_neg (by simp [hq])]
                have h1 := hIH us
                rw [if_neg hq] at h1
                simp only [recsAt, getWords, alookup_aset_self, hl] at h1 ⊢
                simp [h1]
            · rw [if_neg (by simp [hu])]
              simp [recsAt, getWords, alookup_aset_ne _ _ _ _ hu]

/-- Combine the record list already present at a node with the records
appended later: `none` only when both sides are empty. -/
def joinRecs (o : Option (List TransRec)) (l : List TransRec) : Option (List TransRec) :=
  match o with
  | some l0 => some (l0 ++ l)
  | none => if l = [] then none else some l

/-- Folding a sequence of insertions over a trie: the record list reached by
`q` afterwards is the one reached before, extended by the records inserted
for exactly the phrase `q`, in order. -/
theorem recsAt_buildFrom :
    ∀ (I : List (List String × TransRec)) (m T : List (String × Val)),
      buildFrom m I = some T →
      ∀ q : List String, recsAt q T = joinRecs (recsAt q m) (recordsFor q I) := by
  intro I
  induction I with
  | nil =>
    intro m T h q
    simp only [buildFrom, List.foldlM_nil] at h
    injection h with h
    subst h
    cases hx : recsAt q m <;> simp [recordsFor, joinRecs, hx]
  | cons pr I ih =>
    obtain ⟨p, r⟩ := pr
    intro m T h q
    rw [buildFrom, List.foldlM_cons] at h
    cases hm : appendWords r p m with
    | none => rw [hm] at h; simp at h
    | some m1 =>
      rw [hm] at h
      simp only [Option.bind_eq_bind, Option.some_bind] at h
      have hstep := recsAt_appendWords r p m m1 hm q
      have hrest := ih m1 T h q
      by_cases hq : q = p
      · subst hq
        rw [if_pos rfl] at hstep
        rw [hrest, hstep]
        have hrec : recordsFor q ((q, r) :: I) = r :: recordsFor q I := by
          simp [recordsFor, List.filter]
        rw [hrec]
        cases hx : recsAt q m <;> simp [joinRecs, optRecs, hx]
      · rw [if_neg hq] at hstep
        rw [hrest, hstep]
        have hpq : ¬ p = q := fun hh => hq hh.symm
        have hrec : recordsFor q ((p, r) :: I) = recordsFor q I := by
          simp [recordsFor, List.filter, hpq]
        rw [hrec]

/-- `__contains__` succeeds exactly when `__getitem__` would return something
(the two methods perform the same walk). -/
theorem containsWords_eq_getWords (q : List String) :
    ∀ m : List (String × Val), containsWords q m = (getWords q m).isSome := by
  induction q with
  | nil => intro m; simp [containsWords, getWords]
  | cons u us ih =>
    intro m
    simp only [containsWords, getWords]
    cases alookup m u with
    | none => simp
    | some v => cases v <;> simp [ih]

/-- Invariant of every trie reachable by insertions whose phrases avoid the
empty-string word: the reserved key `""` maps to a record list, and every
other key maps to a child dict satisfying the same invariant. -/
inductive GoodDict : List (String × Val) → Prop where
  | nil : GoodDict []
  | consDict : ∀ (w : String) (c m : List (String × Val)), w ≠ "" → GoodDict c → GoodDict m →
      GoodDict ((w, Val.dict c) :: m)
  | consRecs : ∀ (l : List TransRec) (m : List (String × Val)), GoodDict m →
      GoodDict (("", Val.recs l) :: m)

theorem alookup_gooddict {m : List (String × Val)} (h : GoodDict m) :
    ∀ (w : String) (v : Val), alookup m w = some v →
      (w = "" ∧ ∃ l, v = Val.recs l) ∨ (w ≠ "" ∧ ∃ c, v = Val.dict c ∧ GoodDict c) := by
  induction h with
  | nil => intro w v hv; simp [alookup] at hv
  | consDict w0 c m0 hw hc hm ihc ihm =>
    intro w v hv
    by_cases he : w0 = w
    · subst he
      rw [alookup, if_pos rfl] at hv
      injection hv with hv
      subst hv
      exact Or.inr ⟨hw, c, rfl, hc⟩
    · rw [alookup, if_neg he] at hv
      exact ihm w v hv
  | consRecs l m0 hm ihm =>
    intro w v hv
    by_cases he : ("" : String) = w
    · subst he
      rw [alookup, if_pos rfl] at hv
      injection hv with hv
      subst hv
      exact Or.inl ⟨rfl, l, rfl⟩
    · rw [alookup, if_neg he] at hv
      exact ihm w v hv

theorem gooddict_aset_dict {m : List (String × Val)} (h : GoodDict m) (w : String) (hw : w ≠ "")
    {c : List (String × Val)} (hc : GoodDict c) : GoodDict (aset m w (Val.dict c)) := by
  induction h with
  | nil => simpa [aset] using GoodDict.consDict w c [] hw hc GoodDict.nil
  | consDict w0 c0 m0 hw0 hc0 hm0 ihc ihm =>
    by_cases he : w0 = w
    · subst he
      simp only [aset, if_pos rfl]
      exact GoodDict.consDict _ _ _ hw0 hc hm0
    · simp only [aset, if_neg he]
      exact GoodDict.consDict _ _ _ hw0 hc0 ihm
  | consRecs l0 m0 hm0 ihm =>
    have he : ("" : String) ≠ w := fun hh => hw hh.symm
    simp only [aset, if_neg he]
    exact GoodDict.consRecs _ _ ihm

theorem gooddict_aset_recs {m : List (String × Val)} (h : GoodDict m) (l : List TransRec) :
    GoodDict (aset m "" (Val.recs l)) := by
  induction h with
  | nil => simpa [aset] using GoodDict.consRecs l [] GoodDict.nil
  | consDict w0 c0 m0 hw0 hc0 hm0 ihc ihm =>
    simp only [aset, if_neg hw0]
    exact GoodDict.consDict _ _ _ hw0 hc0 ihm
  | consRecs l0 m0 hm0 ihm =>
    simp only [aset, if_pos rfl]
    exact GoodDict.consRecs _ _ hm0

/-- On a well-shaped trie, inserting a phrase with no empty-string word never
raises, and preserves the shape invariant. -/
theorem appendWords_success (r : TransRec) :
    ∀ (p : List String) (m : List (String × Val)), GoodDict m → (∀ w ∈ p, w ≠ "") →
      ∃ m', appendWords r p m = some m' ∧ GoodDict m' := by
  intro p
  induction p with
  | nil =>
    intro m hm _
    cases hl : alookup m "" with
    | none =>
      exact ⟨aset m "" (Val.recs [r]), by simp [appendWords, hl], gooddict_aset_recs hm _⟩
    | some v =>
      rcases alookup_gooddict hm "" v hl with ⟨_, l, rfl⟩ | ⟨hne, _⟩
      · exact ⟨aset m "" (Val.recs (l ++ [r])), by simp [appendWords, hl],
          gooddict_aset_recs hm _⟩
      · exact absurd rfl hne
  | cons w ws ih =>
    intro m hm hp
    have hw : w ≠ "" := hp w (by simp)
    have hws : ∀ u ∈ ws, u ≠ "" := fun u hu => hp u (by simp [hu])
    cases hl : alookup m w with
    | none =>
      obtain ⟨c2, hc2, hg2⟩ := ih [] GoodDict.nil hws
      exact ⟨_, by simp [appendWords, hl, hc2], gooddict_aset_dict hm w hw hg2⟩
    | some v =>
      rcases alookup_gooddict hm w v hl with ⟨heq, _⟩ | ⟨_, c, rfl, hc⟩
      · exact absurd heq hw
      · obtain ⟨c2, hc2, hg2⟩ := ih c hc hws
        exact ⟨_, by simp [appendWords, hl, hc2], gooddict_aset_dict hm w hw hg2⟩

theorem buildFrom_success :
    ∀ (I : List (List String × TransRec)) (m : List (String × Val)), GoodDict m →
      (∀ pr ∈ I, ∀ w ∈ pr.1, w ≠ "") →
      ∃ T, buildFrom m I = some T ∧ GoodDict T := by
  intro I
  induction I with
  | nil => intro m hm _; exact ⟨m, by simp [buildFrom], hm⟩
  | cons pr I ih =>
    intro m hm hI
    obtain ⟨p, r⟩ := pr
    obtain ⟨m1, hm1, hg1⟩ := appendWords_success r p m hm (hI (p, r) (by simp))
    obtain ⟨T, hT, hgT⟩ := ih m1 hg1 (fun pr2 hpr => hI pr2 (by simp [hpr]))
    refine ⟨T, ?_, hgT⟩
    rw [buildFrom, List.foldlM_cons, hm1]
    exact hT

/-- On a well-shaped trie, whatever `__getitem__` returns is a record list
(never a child dict). -/
theorem getWords_gooddict :
    ∀ (q : List String) (m : List (String × Val)), GoodDict m →
      ∀ v : Val, getWords q m = some v → ∃ l, v = Val.recs l := by
  intro q
  induction q with
  | nil =>
    intro m hm v hv
    rw [getWords] at hv
    rcases alookup_gooddict hm "" v hv with ⟨_, l, rfl⟩ | ⟨hne, _⟩
    · exact ⟨l, rfl⟩
    · exact absurd rfl hne
  | cons u us ih =>
    intro m hm v hv
    cases hl : alookup m u with
    | none => simp [getWords, hl] at hv
    | some w0 =>
      rcases alookup_gooddict hm u w0 hl with ⟨he, l, rfl⟩ | ⟨hne, c, rfl, hc⟩
      · simp [getWords, hl] at hv
      · simp only [getWords, hl] at hv
        exact ih c hc v hv

/-- `buildTable` is the raw fold wrapped in the `PhraseTable` structure. -/
theorem buildTable_eq (I : List (List String × TransRec)) :
    buildTable I = (buildFrom [] I).map PhraseTable.mk := by
  suffices h : ∀ m : List (String × Val),
      (I.foldlM
        (fun pt pr => pt.append pr.1 pr.2.target pr.2.Pst pr.2.Pts pr.2.null_alignments)
        (⟨m⟩ : PhraseTable))
      = (buildFrom m I).map PhraseTable.mk from h []
  induction I with
  | nil => intro m; simp [buildFrom]
  | cons pr I ih =>
    intro m
    obtain ⟨p, r⟩ := pr
    have het : (⟨r.target, r.Pst, r.Pts, r.null_alignments⟩ : TransRec) = r := rfl
    rw [List.foldlM_cons, buildFrom, List.foldlM_cons]
    cases hm : appendWords r p m with
    | none =>
      simp [PhraseTable.append, het, hm]
    | some m1 =>
      simp only [PhraseTable.append, het, hm, Option.map_some', Option.some_bind]
      exact ih m1

theorem recordsFor_ne_nil_of_mem {q : List String} {r : TransRec}
    {I : List (List String × TransRec)} (hr : (q, r) ∈ I) : recordsFor q I ≠ [] := by
  intro hnil
  have hmem : (q, r) ∈ I.filter (fun pr => decide (pr.1 = q)) :=
    List.mem_filter.mpr ⟨hr, by simp⟩
  cases hx : I.filter (fun pr => decide (pr.1 = q)) with
  | nil => rw [hx] at hmem; simp at hmem
  | cons a l2 => rw [recordsFor, hx] at hnil; simp at hnil

theorem exists_mem_of_recordsFor_ne_nil {q : List String}
    {I : List (List String × TransRec)} (hne : recordsFor q I ≠ []) :
    ∃ r : TransRec, (q, r) ∈ I := by
  obtain ⟨r, hr⟩ : ∃ r, r ∈ recordsFor q I := by
    cases hx : recordsFor q I with
    | nil => exact absurd hx hne
    | cons a l2 => exact ⟨a, by simp [hx]⟩
  rw [recordsFor] at hr
  obtain ⟨pr, hpr, rfl⟩ := List.mem_map.mp hr
  have hf := List.mem_filter.mp hpr
  have hq : pr.1 = q := of_decide_eq_true hf.2
  refine ⟨pr.2, ?_⟩
  have hpr2 : pr = (q, pr.2) := by rw [← hq]
  rw [← hpr2]
  exact hf.1

/-- Claim C1, counterexample: insert the one-word phrase consisting of the
empty string; then `contains(())` is true although the empty phrase was
never inserted.  The reserved terminal marker `""` is not distinct from a
real empty-string word. -/
theorem moses_contains_empty_word_collision :
    (buildTable [([""], (⟨["x"], 0, 0, 0⟩ : TransRec))]).map
        (fun pt => pt.contains ([] : List String)) = some true ∧
    ¬ ∃ r : TransRec, (([] : List String), r) ∈ [([""], (⟨["x"], 0, 0, 0⟩ : TransRec))] := by
  refine ⟨rfl, ?_⟩
  rintro ⟨r, hr⟩
  simp at hr

/-- Claim C1 (amended): for every sequence of `append` calls whose source
phrases contain no empty-string word, the build succeeds and
`contains(phrase)` is true iff that exact phrase was the source of at least
one `append`; in particular a phrase that is only a proper prefix of an
inserted phrase is not contained. -/
theorem moses_contains_iff_inserted
    (I : List (List String × TransRec)) (hI : ∀ pr ∈ I, ∀ w ∈ pr.1, w ≠ "") :
    ∃ pt : PhraseTable, buildTable I = some pt ∧
      ∀ q : List String, (pt.contains q = true ↔ ∃ r : TransRec, (q, r) ∈ I) := by
  obtain ⟨T, hT, hg⟩ := buildFrom_success I [] GoodDict.nil hI
  refine ⟨⟨T⟩, by rw [buildTable_eq, hT]; rfl, ?_⟩
  intro q
  have hrecs := recsAt_buildFrom I [] T hT q
  rw [recsAt_nil] at hrecs
  constructor
  · intro hc
    rw [PhraseTable.contains, containsWords_eq_getWords] at hc
    obtain ⟨v, hv⟩ := Option.isSome_iff_exists.mp hc
    obtain ⟨l, rfl⟩ := getWords_gooddict q T hg v hv
    have hsome : recsAt q T = some l := by simp [recsAt, hv]
    rw [hsome] at hrecs
    by_cases hne : recordsFor q I = []
    · rw [hne] at hrecs; simp [joinRecs] at hrecs
    · exact exists_mem_of_recordsFor_ne_nil hne
  · rintro ⟨r, hr⟩
    have hne := recordsFor_ne_nil_of_mem hr
    rw [PhraseTable.contains, containsWords_eq_getWords]
    have hsome : recsAt q T = some (recordsFor q I) := by
      rw [hrecs, joinRecs]; simp [hne]
    rw [recsAt] at hsome
    cases hv : getWords q T with
    | none => rw [hv] at hsome; simp at hsome
    | some v => simp [hv]

/-- Witness for `moses_contains_iff_inserted` at a concrete insertion list. -/
theorem moses_contains_iff_inserted_witness :
    ∃ pt : PhraseTable, buildTable [(["le"], (⟨["the"], 0, 0, 0⟩ : TransRec))] = some pt ∧
      ∀ q : List String,
        (pt.contains q = true ↔ ∃ r : TransRec, (q, r) ∈ [(["le"], (⟨["the"], 0, 0, 0⟩ : TransRec))]) :=
  moses_contains_iff_inserted _ (by decide)

/-- Claim C2: looking up an inserted source phrase returns exactly the
translation records inserted for that phrase, in insertion order (no
reordering by probability). -/
theorem moses_getitem_insertion_order
    (I : List (List String × TransRec)) (pt : PhraseTable) (h : buildTable I = some pt)
    (q : List String) (r : TransRec) (hq : (q, r) ∈ I) :
    pt.getitem q = some (Val.recs (recordsFor q I)) := by
  rw [buildTable_eq] at h
  cases hT : buildFrom [] I with
  | none => rw [hT] at h; simp at h
  | some T =>
    rw [hT] at h
    simp only [Option.map_some'] at h
    injection h with h
    subst h
    have hrecs := recsAt_buildFrom I [] T hT q
    rw [recsAt_nil] at hrecs
    have hne := recordsFor_ne_nil_of_mem hq
    have hsome : recsAt q T = some (recordsFor q I) := by
      rw [hrecs, joinRecs]; simp [hne]
    rw [recsAt] at hsome
    rw [PhraseTable.getitem]
    cases hv : getWords q T with
    | none => rw [hv] at hsome; simp at hsome
    | some v =>
      rw [hv] at hsome
      cases v with
      | dict c => simp at hsome
      | recs l => simp only [Option.some.injEq] at hsome; rw [hsome]

/-- Witness for `moses_getitem_insertion_order`: inserting
`("le","chat") -> ("the","cat")` and then `("le","chat") -> ("the","kitten")`
makes lookup return the two records in that order. -/
theorem moses_getitem_insertion_order_witness :
    PhraseTable.getitem
      ⟨[("le", Val.dict [("chat", Val.dict [("", Val.recs
          [⟨["the", "cat"], 0, 0, 0⟩, ⟨["the", "kitten"], 0, 0, 0⟩])])])]⟩
      ["le", "chat"]
    = some (Val.recs [⟨["the", "cat"], 0, 0, 0⟩, ⟨["the", "kitten"], 0, 0, 0⟩]) := by
  have h := moses_getitem_insertion_order
    [(["le", "chat"], ⟨["the", "cat"], 0, 0, 0⟩),
     (["le", "chat"], ⟨["the", "kitten"], 0, 0, 0⟩)]
    ⟨[("le", Val.dict [("chat", Val.dict [("", Val.recs
        [⟨["the", "cat"], 0, 0, 0⟩, ⟨["the", "kitten"], 0, 0, 0⟩])])])]⟩
    rfl ["le", "chat"] ⟨["the", "cat"], 0, 0, 0⟩ (by simp)
  exact h

/-! ### `statistics.py`: FrequencyList -/

/-- A Python value passed as a "type" or token to `FrequencyList`: either a
string (iterating it yields its characters) or a tuple of strings. -/
inductive PyVal where
  | str : String → PyVal
  | tup : List String → PyVal

/-- The elements obtained by iterating a Python value: the elements of a
tuple, or the characters of a string (each a length-1 string in Python). -/
def pyElems : PyVal → List String
  | PyVal.tup xs => xs
  | PyVal.str s => s.data.map (fun c => String.mk [c])

/-- The `FrequencyList` object state: `counts` models `_count`, `ranked`
models `_ranked` (`[]` stands for every falsy value of the source: the
initial `{}`, the `None` written by `count`, and an empty sorted list),
`total` and `casesensitive` are the attributes of the same name.  Note that
the attribute `_total` read by `sum`, `typetokenratio` and `p` is never
assigned anywhere in the class. -/
structure FrequencyList where
  counts : List (List String × Int)
  ranked : List (List String × Int)
  total : Int
  casesensitive : Bool

/-- `FrequencyList._validate(type)`: `tuple(type)`, lower-casing each element
first when case-insensitive. -/
def FrequencyList.validate (fl : FrequencyList) (type : PyVal) : List String :=
  if ¬ fl.casesensitive then (pyElems type).map pyLower
  else pyElems type

/-- `_count[type] += amount` when present, `_count[type] = amount` otherwise. -/
def updateAdd : List (List String × Int) → List String → Int → List (List String × Int)
  | [], k, n => [(k, n)]
  | (k0, v) :: m, k, n => if k0 = k then (k0, v + n) :: m else (k0, v) :: updateAdd m k n

/-- `FrequencyList.count(type, amount)` (the source default for `amount` is 1). -/
def FrequencyList.count (fl : FrequencyList) (type : PyVal) (amount : Int) :
    FrequencyList :=
  { counts := updateAdd fl.counts (fl.validate type) amount
    ranked := []
    total := fl.total + amount
    casesensitive := fl.casesensitive }

/-- `FrequencyList.append(tokens)`: `count(token)` once per token. -/
def FrequencyList.append (fl : FrequencyList) (tokens : List PyVal) : FrequencyList :=
  tokens.foldl (fun f token => f.count token 1) fl

/-- `FrequencyList.__init__(tokens, casesensitive)` (the source defaults are
`tokens=None`, `casesensitive=True`); a falsy `tokens` is not appended, which
coincides with appending nothing. -/
def freqListInit (tokens : Option (List PyVal)) (casesensitive : Bool) : FrequencyList :=
  match tokens with
  | some ts => FrequencyList.append ⟨[], [], 0, casesensitive⟩ ts
  | none => ⟨[], [], 0, casesensitive⟩

/-- `FrequencyList.__setitem__(type, value)`: count once, `ValueError` if the
type already has a count (the object is unchanged in that case). -/
def FrequencyList.setitem (fl : FrequencyList) (type : PyVal) (value : Int) :
    Except PyErr FrequencyList :=
  let t := fl.validate type
  if (alookup fl.counts t).isSome then Except.error PyErr.valueError
  else Except.ok (fl.count (PyVal.tup t) value)

/-- One step of a stable descending-by-count insertion sort, modelling
`sorted(items, key=lambda x: x[1], reverse=True)` (Python's sort is stable). -/
def insertDesc (x : List String × Int) : List (List String × Int) → List (List String × Int)
  | [] => [x]
  | y :: ys => if y.2 ≤ x.2 then x :: y :: ys else y :: insertDesc x ys

def sortDescByCount (m : List (List String × Int)) : List (List String × Int) :=
  m.foldr insertDesc []

/-- `FrequencyList._rank()`: compute the ranked list only when the cache is
falsy. -/
def FrequencyList.rank (fl : FrequencyList) : FrequencyList :=
  if fl.ranked = [] then { fl with ranked := sortDescByCount fl.counts } else fl

/-- `FrequencyList.p(type)`: the source evaluates `self._count[type]` first
(raising `KeyError` for an absent type), then reads `self._total` — an
attribute that is never assigned (`__init__` sets `total`) — so Python
raises `AttributeError` before any division can happen. -/
def FrequencyList.p (fl : FrequencyList) (type : PyVal) : Except PyErr Rat :=
  match alookup fl.counts (fl.validate type) with
  | none => Except.error PyErr.keyError
  | some _ => Except.error PyErr.attributeError

/-- `FrequencyList.__add__(otherfreqlist)`: a new `FrequencyList(None, )` —
whose `casesensitive` is therefore the default `True` — into which the raw
`_count.items()` of both operands are counted, `self` first. -/
def FrequencyList.add (a b : FrequencyList) : FrequencyList :=
  let product := freqListInit none true
  let product2 := a.counts.foldl (fun f kv => f.count (PyVal.tup kv.1) kv.2) product
  b.counts.foldl (fun f kv => f.count (PyVal.tup kv.1) kv.2) product2

/-- Count stored for a key, `0` when the key is absent. -/
def lookupCount (fl : FrequencyList) (k : List String) : Int :=
  (alookup fl.counts k).getD 0

/-- Claim C3 (code bug): after `count(("a",)); count(("a",)); count(("b",))`
the state is exactly as the claim expects (`total = 3`, stored count of
`("a",)` is 2), but `p(("a",))` raises `AttributeError` instead of returning
2/3, because it divides by the never-assigned attribute `_total`. -/
theorem freqlist_p_attribute_error :
    ((((freqListInit none true).count (PyVal.tup ["a"]) 1).count (PyVal.tup ["a"]) 1).count
        (PyVal.tup ["b"]) 1).p (PyVal.tup ["a"]) = Except.error PyErr.attributeError ∧
    ((((freqListInit none true).count (PyVal.tup ["a"]) 1).count (PyVal.tup ["a"]) 1).count
        (PyVal.tup ["b"]) 1).total = 3 ∧
    alookup ((((freqListInit none true).count (PyVal.tup ["a"]) 1).count
        (PyVal.tup ["a"]) 1).count (PyVal.tup ["b"]) 1).counts ["a"] = some 2 :=
  ⟨rfl, rfl, rfl⟩

/-! ### FrequencyList invariant (total and ranked cache) -/

/-- Sum of all stored counts. -/
def sumCounts (m : List (List String × Int)) : Int := (m.map (fun kv => kv.2)).sum

theorem sumCounts_updateAdd (m : List (List String × Int)) (k : List String) (n : Int) :
    sumCounts (updateAdd m k n) = sumCounts m + n := by
  induction m with
  | nil => simp [updateAdd, sumCounts]
  | cons kv m ih =>
    obtain ⟨k0, v⟩ := kv
    by_cases h : k0 = k
    · simp [updateAdd, h, sumCounts]
      omega
    · simp only [updateAdd, if_neg h, sumCounts, List.map_cons, List.sum_cons] at ih ⊢
      omega

theorem insertDesc_perm (x : List String × Int) (l : List (List String × Int)) :
    (insertDesc x l).Perm (x :: l) := by
  induction l with
  | nil => exact List.Perm.refl _
  | cons y ys ih =>
    by_cases h : y.2 ≤ x.2
    · simp [insertDesc, h]
    · simp only [insertDesc, if_neg h]
      exact (ih.cons y).trans (List.Perm.swap x y ys)

theorem sortDescByCount_perm (m : List (List String × Int)) :
    (sortDescByCount m).Perm m := by
  induction m with
  | nil => exact List.Perm.refl _
  | cons a l ih =>
    exact (insertDesc_perm a (sortDescByCount l)).trans (ih.cons a)

/-- One operation of a `FrequencyList` use: the mutators `count`, `append`
and `__setitem__` (a raised `ValueError` leaves the object unchanged), and
the cache-filling `_rank` (called by `__iter__` and `mode`). -/
inductive FLOp where
  | count : PyVal → Int → FLOp
  | append : List PyVal → FLOp
  | setitem : PyVal → Int → FLOp
  | rank : FLOp

def applyOp (fl : FrequencyList) : FLOp → FrequencyList
  | FLOp.count t n => fl.count t n
  | FLOp.append ts => fl.append ts
  | FLOp.setitem t n =>
    match fl.setitem t n with
    | Except.ok f => f
    | Except.error _ => fl
  | FLOp.rank => fl.rank

def applyOps (fl : FrequencyList) (ops : List FLOp) : FrequencyList :=
  ops.foldl applyOp fl

/-- The claimed invariant: `total` equals the sum of all stored counts, and
the ranked cache, whenever populated (truthy), is a permutation of the
current `(type, count)` entries. -/
def FLInv (fl : FrequencyList) : Prop :=
  fl.total = sumCounts fl.counts ∧ (fl.ranked ≠ [] → fl.ranked.Perm fl.counts)

theorem FLInv_count {fl : FrequencyList} (h : FLInv fl) (t : PyVal) (n : Int) :
    FLInv (fl.count t n) := by
  refine ⟨?_, ?_⟩
  · simp [FrequencyList.count, sumCounts_updateAdd, h.1]
  · intro hr
    exact absurd rfl hr

theorem FLInv_append {fl : FrequencyList} (h : FLInv fl) (ts : List PyVal) :
    FLInv (fl.append ts) := by
  induction ts generalizing fl with
  | nil => exact h
  | cons t ts ih => exact ih (FLInv_count h t 1)

theorem FLInv_applyOp {fl : FrequencyList} (h : FLInv fl) (op : FLOp) :
    FLInv (applyOp fl op) := by
  cases op with
  | count t n => exact FLInv_count h t n
  | append ts => exact FLInv_append h ts
  | setitem t n =>
    simp only [applyOp, FrequencyList.setitem]
    by_cases hs : (alookup fl.counts (fl.validate t)).isSome
    · simp only [if_pos hs]
      exact h
    · simp only [if_neg hs]
      exact FLInv_count h _ n
  | rank =>
    simp only [applyOp, FrequencyList.rank]
    by_cases hr : fl.ranked = []
    · simp only [if_pos hr]
      exact ⟨h.1, fun _ => sortDescByCount_perm fl.counts⟩
    · simp only [if_neg hr]
      exact h

theorem FLInv_applyOps {fl : FrequencyList} (h : FLInv fl) (ops : List FLOp) :
    FLInv (applyOps fl ops) := by
  induction ops generalizing fl with
  | nil => exact h
  | cons op ops ih => exact ih (FLInv_applyOp h op)

/-- Claim C6: after every sequence of operations on a fresh `FrequencyList`,
`total` equals the sum of all stored counts and the ranked cache, whenever
populated, is a permutation of the current entries; and every `count`
mutation clears the ranked cache. -/
theorem freqlist_invariant :
    (∀ (casesensitive : Bool) (ops : List FLOp),
      FLInv (applyOps (freqListInit none casesensitive) ops)) ∧
    (∀ (fl : FrequencyList) (t : PyVal) (n : Int), (fl.count t n).ranked = []) := by
  constructor
  · intro cs ops
    refine FLInv_applyOps ⟨rfl, fun hr => absurd rfl hr⟩ ops
  · intro fl t n
    rfl

/-- Witness for `freqlist_invariant`: a concrete run where the ranked cache
is populated and is indeed a permutation of the entries. -/
theorem freqlist_invariant_witness :
    (applyOps (freqListInit none true) [FLOp.count (PyVal.tup ["a"]) 1, FLOp.rank]).ranked.Perm
      (applyOps (freqListInit none true) [FLOp.count (PyVal.tup ["a"]) 1, FLOp.rank]).counts := by
  exact (freqlist_invariant.1 true [FLOp.count (PyVal.tup ["a"]) 1, FLOp.rank]).2 (by decide)

/-! ### What `append` actually stores -/

theorem alookup_updateAdd_self (m : List (List String × Int)) (k : List String) (n : Int) :
    alookup (updateAdd m k n) k = some ((alookup m k).getD 0 + n) := by
  induction m with
  | nil => simp [updateAdd, alookup]
  | cons kv m ih =>
    obtain ⟨k0, v⟩ := kv
    by_cases h : k0 = k
    · subst h
      simp [updateAdd, alookup]
    · simp [updateAdd, alookup, h, ih]

theorem alookup_updateAdd_ne (m : List (List String × Int)) (k x : List String) (n : Int)
    (h : x ≠ k) : alookup (updateAdd m k n) x = alookup m x := by
  induction m with
  | nil =>
    simp only [updateAdd, alookup]
    rw [if_neg (fun hh => h hh.symm)]
  | cons kv m ih =>
    obtain ⟨k0, v⟩ := kv
    by_cases h0 : k0 = k
    · subst h0
      simp only [updateAdd, if_pos rfl, alookup]
      rw [if_neg (fun hh => h hh.symm), if_neg (fun hh => h hh.symm)]
    · simp only [updateAdd, if_neg h0, alookup, ih]

theorem validate_count (fl : FrequencyList) (t : PyVal) (n : Int) (ty : PyVal) :
    (fl.count t n).validate ty = fl.validate ty := rfl

/-- Counting a sequence of tokens with amount 1: the entry of a key `k`
afterwards is its old entry plus the number of tokens whose validated form
is `k` (created when absent). -/
theorem alookup_append_counts :
    ∀ (toks : List PyVal) (fl : FrequencyList) (k : List String),
      alookup (fl.append toks).counts k =
        if toks.countP (fun t => decide (fl.validate t = k)) = 0 then alookup fl.counts k
        else some ((alookup fl.counts k).getD 0 +
          (toks.countP (fun t => decide (fl.validate t = k)) : Int)) := by
  intro toks
  induction toks with
  | nil => intro fl k; simp [FrequencyList.append]
  | cons t ts ih =>
    intro fl k
    have hIH := ih (fl.count t 1) k
    simp only [validate_count] at hIH
    have happ : fl.append (t :: ts) = (fl.count t 1).append ts := rfl
    rw [happ, hIH]
    by_cases hk : fl.validate t = k
    · have hcnt : (t :: ts).countP (fun u => decide (fl.validate u = k))
          = ts.countP (fun u => decide (fl.validate u = k)) + 1 := by
        simp [List.countP_cons, hk]
      have hself : alookup (fl.count t 1).counts k
          = some ((alookup fl.counts k).getD 0 + 1) := by
        simp only [FrequencyList.count, hk]
        exact alookup_updateAdd_self fl.counts k 1
      rw [hcnt]
      by_cases h0 : ts.countP (fun u => decide (fl.validate u = k)) = 0
      · rw [if_pos h0, if_neg (by omega), hself]
        simp [h0]
      · rw [if_neg h0, if_neg (by omega), hself]
        simp only [Option.getD_some, Option.some.injEq]
        push_cast
        omega
    · have hcnt : (t :: ts).countP (fun u => decide (fl.validate u = k))
          = ts.countP (fun u => decide (fl.validate u = k)) := by
        simp [List.countP_cons, hk]
      have hne : alookup (fl.count t 1).counts k = alookup fl.counts k := by
        simp only [FrequencyList.count]
        exact alookup_updateAdd_ne fl.counts (fl.validate t) k 1 (fun hh => hk hh.symm)
      rw [hcnt, hne]

theorem append_total :
    ∀ (toks : List PyVal) (fl : FrequencyList),
      (fl.append toks).total = fl.total + toks.length := by
  intro toks
  induction toks with
  | nil => intro fl; simp [FrequencyList.append]
  | cons t ts ih =>
    intro fl
    have happ : fl.append (t :: ts) = (fl.count t 1).append ts := rfl
    rw [happ, ih]
    simp only [FrequencyList.count, List.length_cons]
    push_cast
    omega

/-- Claim C4, counterexample: appending the single token `"ab"` to a fresh
list does not store the unary type `("ab",)`; the token is tupled into its
characters and stored under `("a","b")`. -/
theorem freqlist_append_not_unary :
    alookup ((freqListInit none true).append [PyVal.str "ab"]).counts ["ab"] = none ∧
    alookup ((freqListInit none true).append [PyVal.str "ab"]).counts ["a", "b"] = some 1 :=
  ⟨rfl, rfl⟩

/-- Claim C4 (amended): `append` calls `count` once per token with amount 1,
but each token is normalized by `tuple()`-conversion, so a string token is
stored as the tuple of its (lower-cased, if case-insensitive) characters —
a length-1 type only for single-character tokens.  The stored count equals
the number of tokens sharing that character tuple, and `total` equals the
length of the sequence. -/
theorem freqlist_append_char_tuples
    (cs : Bool) (toks : List String) (s : String) (hs : s ∈ toks) :
    ((freqListInit none cs).append (toks.map PyVal.str)).total = toks.length ∧
    alookup ((freqListInit none cs).append (toks.map PyVal.str)).counts
        ((freqListInit none cs).validate (PyVal.str s))
      = some ((toks.map PyVal.str).countP
          (fun t => decide ((freqListInit none cs).validate t =
            (freqListInit none cs).validate (PyVal.str s))) : Int) := by
  constructor
  · rw [append_total]
    simp [freqListInit]
  · rw [alookup_append_counts]
    have hpos : 0 < (toks.map PyVal.str).countP
        (fun t => decide ((freqListInit none cs).validate t =
          (freqListInit none cs).validate (PyVal.str s))) := by
      refine List.countP_pos_iff.mpr ?_
      exact ⟨PyVal.str s, List.mem_map_of_mem PyVal.str hs, by simp⟩
    rw [if_neg (by omega)]
    simp [freqListInit, alookup]

/-- Witness for `freqlist_append_char_tuples` at the token list `["ab"]`. -/
theorem freqlist_append_char_tuples_witness :
    ((freqListInit none true).append [PyVal.str "ab"]).total = 1 ∧
    alookup ((freqListInit none true).append [PyVal.str "ab"]).counts ["a", "b"] = some 1 := by
  have h := freqlist_append_char_tuples true ["ab"] "ab" (by simp)
  exact h

/-! ### `__add__` -/

/-- Sum of the counts carried by the entries of `l` whose key is `k`. -/
def sumFor (l : List (List String × Int)) (k : List String) : Int :=
  ((l.filter (fun kv => decide (kv.1 = k))).map (fun kv => kv.2)).sum

theorem foldl_count_tup_casesensitive :
    ∀ (l : List (List String × Int)) (fl : FrequencyList),
      (l.foldl (fun f kv => f.count (PyVal.tup kv.1) kv.2) fl).casesensitive
        = fl.casesensitive := by
  intro l
  induction l with
  | nil => intro fl; rfl
  | cons kv l ih => intro fl; exact ih (fl.count (PyVal.tup kv.1) kv.2)

theorem foldl_count_tup_lookup :
    ∀ (l : List (List String × Int)) (fl : FrequencyList), fl.casesensitive = true →
      ∀ k : List String,
        lookupCount (l.foldl (fun f kv => f.count (PyVal.tup kv.1) kv.2) fl) k
          = lookupCount fl k + sumFor l k := by
  intro l
  induction l with
  | nil => intro fl _ k; simp [sumFor]
  | cons kv l ih =>
    intro fl hcs k
    obtain ⟨k0, v⟩ := kv
    have hval : fl.validate (PyVal.tup k0) = k0 := by
      simp [FrequencyList.validate, hcs, pyElems]
    have hIH := ih (fl.count (PyVal.tup k0) v) (by rw [← hcs]; rfl) k
    simp only [List.foldl_cons] at hIH ⊢
    rw [hIH]
    by_cases hk : k0 = k
    · subst hk
      have h1 : lookupCount (fl.count (PyVal.tup k0) v) k0 = lookupCount fl k0 + v := by
        simp only [lookupCount, FrequencyList.count, hval]
        rw [alookup_updateAdd_self]
        simp
      have h2 : sumFor ((k0, v) :: l) k0 = v + sumFor l k0 := by
        simp [sumFor, List.filter]
      rw [h1, h2]
      omega
    · have h1 : lookupCount (fl.count (PyVal.tup k0) v) k = lookupCount fl k := by
        simp only [lookupCount, FrequencyList.count, hval]
        rw [alookup_updateAdd_ne fl.counts k0 k v (fun hh => hk hh.symm)]
      have h2 : sumFor ((k0, v) :: l) k = sumFor l k := by
        simp [sumFor, List.filter, hk]
      rw [h1, h2]

theorem sumFor_zero {l : List (List String × Int)} {k : List String}
    (h : k ∉ l.map (fun kv => kv.1)) : sumFor l k = 0 := by
  induction l with
  | nil => rfl
  | cons kv l ih =>
    obtain ⟨k0, v⟩ := kv
    simp only [List.map_cons, List.mem_cons] at h
    push_neg at h
    have hne : ¬ k0 = k := fun hh => h.1 hh.symm
    simp only [sumFor, List.filter]
    rw [show (decide (k0 = k)) = false from decide_eq_false hne]
    exact ih h.2

theorem sumFor_eq_lookup :
    ∀ (l : List (List String × Int)) (k : List String),
      (l.map (fun kv => kv.1)).Nodup → sumFor l k = (alookup l k).getD 0 := by
  intro l
  induction l with
  | nil => intro k _; rfl
  | cons kv l ih =>
    intro k hnd
    obtain ⟨k0, v⟩ := kv
    simp only [List.map_cons, List.nodup_cons] at hnd
    by_cases hk : k0 = k
    · subst hk
      have h1 : sumFor ((k0, v) :: l) k0 = v + sumFor l k0 := by
        simp [sumFor, List.filter]
      have h2 : sumFor l k0 = 0 := sumFor_zero hnd.1
      rw [h1, h2]
      simp [alookup]
    · have h1 : sumFor ((k0, v) :: l) k = sumFor l k := by
        simp [sumFor, List.filter, hk]
      rw [h1, ih k hnd.2]
      simp [alookup, hk]

/-- Claim C7: `__add__` is commutative on counts — the combined list stores,
for every type, the sum of that type's counts in the two operands (0 when
absent; the operands are values here, so neither is mutated). -/
theorem freqlist_add_commutative (A B : FrequencyList) (k : List String) :
    lookupCount (A.add B) k = lookupCount (B.add A) k ∧
    ((A.counts.map (fun kv => kv.1)).Nodup → (B.counts.map (fun kv => kv.1)).Nodup →
      lookupCount (A.add B) k = lookupCount A k + lookupCount B k) := by
  have main : ∀ X Y : FrequencyList,
      lookupCount (X.add Y) k = sumFor X.counts k + sumFor Y.counts k := by
    intro X Y
    have h1 : (freqListInit none true).casesensitive = true := rfl
    have h2 : (X.counts.foldl (fun f kv => f.count (PyVal.tup kv.1) kv.2)
        (freqListInit none true)).casesensitive = true :=
      foldl_count_tup_casesensitive X.counts (freqListInit none true)
    have e1 := foldl_count_tup_lookup X.counts (freqListInit none true) h1 k
    have e2 := foldl_count_tup_lookup Y.counts
      (X.counts.foldl (fun f kv => f.count (PyVal.tup kv.1) kv.2) (freqListInit none true))
      h2 k
    have e0 : lookupCount (freqListInit none true) k = 0 := rfl
    rw [FrequencyList.add]
    rw [e2, e1, e0]
    omega
  refine ⟨?_, ?_⟩
  · rw [main A B, main B A]
    omega
  · intro hA hB
    rw [main A B, sumFor_eq_lookup A.counts k hA, sumFor_eq_lookup B.counts k hB]
    rfl

/-- Witness for `freqlist_add_commutative` at concrete operands. -/
theorem freqlist_add_commutative_witness :
    lookupCount
        (FrequencyList.add ⟨[(["a"], 2)], [], 2, true⟩ ⟨[(["a"], 3)], [], 3, true⟩) ["a"]
      = lookupCount (⟨[(["a"], 2)], [], 2, true⟩ : FrequencyList) ["a"]
        + lookupCount (⟨[(["a"], 3)], [], 3, true⟩ : FrequencyList) ["a"] :=
  (freqlist_add_commutative ⟨[(["a"], 2)], [], 2, true⟩ ⟨[(["a"], 3)], [], 3, true⟩ ["a"]).2
    (by decide) (by decide)

/-- Claim C10: the `FrequencyList` produced by `__add__` is always
case-sensitive (its constructor call leaves `casesensitive` at the default
`True`), so `count` calls on the combined instance store their argument tuple
verbatim, and a mixed-case type is counted separately from its lower-cased
form. -/
theorem freqlist_add_always_casesensitive (A B : FrequencyList) :
    (A.add B).casesensitive = true ∧
    (∀ (t : List String) (n : Int),
      ((A.add B).count (PyVal.tup t) n).counts = updateAdd (A.add B).counts t n) ∧
    lookupCount ((A.add B).count (PyVal.tup ["A"]) 1) ["a"] = lookupCount (A.add B) ["a"] ∧
    lookupCount ((A.add B).count (PyVal.tup ["A"]) 1) ["A"]
      = lookupCount (A.add B) ["A"] + 1 := by
  have hcs : (A.add B).casesensitive = true := by
    rw [FrequencyList.add]
    rw [foldl_count_tup_casesensitive, foldl_count_tup_casesensitive]
    rfl
  have hval : ∀ t : List String, (A.add B).validate (PyVal.tup t) = t := by
    intro t
    simp [FrequencyList.validate, hcs, pyElems]
  refine ⟨hcs, ?_, ?_, ?_⟩
  · intro t n
    simp [FrequencyList.count, hval]
  · simp only [lookupCount, FrequencyList.count, hval]
    rw [alookup_updateAdd_ne _ _ _ _ (by decide)]
  · simp only [lookupCount, FrequencyList.count, hval]
    rw [alookup_updateAdd_self]
    simp

/-! ### `statistics.py`: Distribution -/

/-- The `Distribution` object state: `dist` models `_dist` (type ↦
probability), `base` the optional logarithm base.  (`_ranked` is omitted:
no modelled method reads it.) -/
structure Distribution where
  dist : List (List String × Rat)
  base : Option Rat

/-- Sum of the probability values of a mapping. -/
def sumVals (data : List (List String × Rat)) : Rat := (data.map (fun kv => kv.2)).sum

/-- `Distribution.__init__(data, base)` for the explicit-mapping branch: the
mapping is kept as-is unless its value sum is `< 0.999` or `> 1.000`, in
which case every value is divided by the sum.  Python raises
`ZeroDivisionError` at the first division when the sum is zero and the
mapping is non-empty. -/
def Distribution.ofDict (data : List (List String × Rat)) (base : Option Rat) :
    Except PyErr Distribution :=
  let total := sumVals data
  if total < 999/1000 ∨ 1 < total then
    if data ≠ [] ∧ total = 0 then Except.error PyErr.zeroDivisionError
    else Except.ok ⟨data.map (fun kv => (kv.1, kv.2 / total)), base⟩
  else Except.ok ⟨data, base⟩

/-- `Distribution.__init__(data, base)` for the `FrequencyList` branch:
probability of each type is `count / total` (a snapshot; no live link). -/
def Distribution.ofFreqList (fl : FrequencyList) (base : Option Rat) : Distribution :=
  ⟨fl.counts.map (fun kv => (kv.1, (kv.2 : Rat) / (fl.total : Rat))), base⟩

/-- `Distribution.information(type)`: the body begins
`if not base and self.base: base = self.base`, but `base` is not a parameter
of this method (unlike `entropy` and `maxentropy`), so reading the local
`base` raises `UnboundLocalError` (a `NameError`) on every call — after
`_validate(type)` runs and before any presence check or logarithm. -/
def Distribution.information (d : Distribution) (type : PyVal) : Except PyErr Rat :=
  let _t := pyElems type
  Except.error PyErr.nameError

/-- Claim C8 (code bug): `information` never returns `-log_base(p(type))`
and never signals Not-Found for an absent type; it raises
`UnboundLocalError`/`NameError` on every call, even on a well-formed
distribution at a present type, because the method reads a local `base` that
is never bound. -/
theorem distribution_information_name_error :
    Distribution.ofDict [(["a"], 1)] none = Except.ok ⟨[(["a"], 1)], none⟩ ∧
    Distribution.information ⟨[(["a"], 1)], none⟩ (PyVal.tup ["a"])
      = Except.error PyErr.nameError ∧
    Distribution.information ⟨[(["a"], 1)], none⟩ (PyVal.tup ["absent"])
      = Except.error PyErr.nameError := by
  refine ⟨?_, rfl, rfl⟩
  simp only [Distribution.ofDict]
  rw [if_neg]
  push_neg
  constructor <;> norm_num [sumVals]

/-- Claim C9: construction from an explicit mapping keeps the values as-is
iff their sum lies in the tolerance band `[0.999, 1.000]`; for a sum outside
the band (below 0.999 or above 1.000) and nonzero, every stored probability
is the original value divided by the sum. -/
theorem distribution_normalization (data : List (List String × Rat)) (base : Option Rat) :
    (999/1000 ≤ sumVals data → sumVals data ≤ 1 →
      Distribution.ofDict data base = Except.ok ⟨data, base⟩) ∧
    ((sumVals data < 999/1000 ∨ 1 < sumVals data) → sumVals data ≠ 0 →
      Distribution.ofDict data base
        = Except.ok ⟨data.map (fun kv => (kv.1, kv.2 / sumVals data)), base⟩) := by
  constructor
  · intro h1 h2
    have hcond : ¬ (sumVals data < 999/1000 ∨ 1 < sumVals data) := by
      push_neg
      exact ⟨h1, h2⟩
    simp only [Distribution.ofDict]
    rw [if_neg hcond]
  · intro h1 h2
    have hcond2 : ¬ (data ≠ [] ∧ sumVals data = 0) := by
      rintro ⟨_, h0⟩
      exact h2 h0
    simp only [Distribution.ofDict]
    rw [if_pos h1, if_neg hcond2]

/-- Witness for `distribution_normalization`: a mapping summing to 1 is kept
as-is; a mapping summing to 1/2 is renormalized to sum 1. -/
theorem distribution_normalization_witness :
    Distribution.ofDict [(["b"], 1)] none = Except.ok ⟨[(["b"], 1)], none⟩ ∧
    Distribution.ofDict [(["b"], (1 : Rat)/2)] none = Except.ok ⟨[(["b"], 1)], none⟩ := by
  constructor
  · exact (distribution_normalization [(["b"], 1)] none).1
      (by norm_num [sumVals]) (by norm_num [sumVals])
  · have h := (distribution_normalization [(["b"], (1 : Rat)/2)] none).2
      (by norm_num [sumVals]) (by norm_num [sumVals])
    rw [h]
    norm_num [sumVals]

/-! ### `formats/moses.py`: the loading loop -/

/-- Numeric value of a digit string. -/
def digitsVal (cs : List Char) : Nat :=
  cs.foldl (fun n c => n * 10 + (c.toNat - 48)) 0

/-- Python `float(s)`, restricted to plain decimal notation (optional sign,
digits, optional fractional part); `ValueError` otherwise.  This subset
covers phrase-table score columns. -/
def pyFloat (s : String) : Except PyErr Rat :=
  let t := (pyStrip s).data
  let sign : Rat := if t.head? = some '-' then -1 else 1
  let t2 := if t.head? = some '-' ∨ t.head? = some '+' then t.drop 1 else t
  let ip := t2.takeWhile Char.isDigit
  let rest := t2.dropWhile Char.isDigit
  match rest with
  | [] =>
    if ip = [] then Except.error PyErr.valueError
    else Except.ok (sign * (digitsVal ip : Rat))
  | '.' :: frac =>
    if frac.all Char.isDigit ∧ ¬ (ip = [] ∧ frac = []) then
      Except.ok (sign * ((digitsVal ip : Rat)
        + (digitsVal frac : Rat) / ((10 : Rat) ^ frac.length)))
    else Except.error PyErr.valueError
  | _ => Except.error PyErr.valueError

/-- Python `l[i]` for a non-negative index, `IndexError` when out of range. -/
def pyIndex (l : List String) (i : Nat) : Except PyErr String :=
  match l.get? i with
  | some x => Except.ok x
  | none => Except.error PyErr.indexError

/-- The `null_alignments` computation of the loader: guarded by
`align2_column > 0`, and wrapped in a bare `except` that turns any failure
(in particular an out-of-range index) into 0. -/
def nullAlignmentsOf (segments : List String) (align2_column : Int) : Nat :=
  if 0 < align2_column then
    match segments.get? align2_column.toNat with
    | some seg => pyCountSub seg "()"
    | none => 0
  else 0

/-- The loader's call `self.append(source, target, Pst, Pts,
null_alignments)`; a raised `TypeError` propagates. -/
def appendOrErr (table : List (String × Val)) (source : List String) (r : TransRec) :
    Except PyErr (List (String × Val)) :=
  match appendWords r source table with
  | some t2 => Except.ok t2
  | none => Except.error PyErr.typeError

/-- The body of the loading loop of `PhraseTable.__init__` for one line:
split the line on the delimiter and strip each segment; when
`score_column > 0` and the line has at least `score_column` segments, parse
the score segment as space-separated numbers and take the 1st and 3rd
(errors propagate), otherwise let both scores default to 0; count `"()"`
occurrences in the alignment column (failures give 0); split source and
target segments on single spaces (roles swapped under `reverse`, which also
swaps the evaluation order of the two indexings); insert the record. -/
def processLine (line : String) (reverse : Bool) (delimiter : String)
    (score_column align2_column : Int) (table : List (String × Val)) :
    Except PyErr (List (String × Val)) := do
  let segments := (pySplit line delimiter).map pyStrip
  let scores ←
    if 0 < score_column ∧ score_column ≤ (segments.length : Int) then do
      let seg ← pyIndex segments (score_column.toNat - 1)
      let nums := pySplit (pyStrip seg) " "
      let n0 ← pyIndex nums 0
      let pst ← pyFloat n0
      let n2 ← pyIndex nums 2
      let pts ← pyFloat n2
      pure (pst, pts)
    else
      pure ((0 : Rat), (0 : Rat))
  let null_alignments := nullAlignmentsOf segments align2_column
  if reverse then do
    let s1 ← pyIndex segments 1
    let s0 ← pyIndex segments 0
    appendOrErr table (pySplit s1 " ") ⟨pySplit s0 " ", scores.1, scores.2, null_alignments⟩
  else do
    let s0 ← pyIndex segments 0
    let s1 ← pyIndex segments 1
    appendOrErr table (pySplit s0 " ") ⟨pySplit s1 " ", scores.1, scores.2, null_alignments⟩

/-- Claim C5, counterexample: with score extraction enabled
(`score_column = 5`), the two-segment line `"a ||| b"` has fewer segments
than the score column requires, yet no error propagates — the record is
inserted with both scores defaulted to 0. -/
theorem moses_short_line_not_fatal :
    processLine "a ||| b" false "|||" 5 4 []
      = Except.ok [("a", Val.dict [("", Val.recs [⟨["b"], 0, 0, 0⟩])])] := rfl

/-- Claim C5 (amended): with score extraction enabled, a line that splits
into at least two segments but fewer than the score column requires is
tolerated: both scores default to 0 and processing goes straight to the
insertion of the record.  (Score extraction is only fatal when the score
segment exists but is malformed; a line with fewer than two segments fails
later, at target extraction.) -/
theorem moses_short_line_tolerated
    (line delimiter : String) (reverse : Bool) (score_column align2_column : Int)
    (table : List (String × Val))
    (hsc : 0 < score_column)
    (hshort : ((((pySplit line delimiter).map pyStrip).length : Int) < score_column))
    (s0 s1 : String)
    (h0 : ((pySplit line delimiter).map pyStrip).get? 0 = some s0)
    (h1 : ((pySplit line delimiter).map pyStrip).get? 1 = some s1) :
    processLine line reverse delimiter score_column align2_column table
      = appendOrErr table
          (pySplit (if reverse then s1 else s0) " ")
          ⟨pySplit (if reverse then s0 else s1) " ", 0, 0,
            nullAlignmentsOf ((pySplit line delimiter).map pyStrip) align2_column⟩ := by
  have hcond : ¬ (0 < score_column
      ∧ score_column ≤ ((((pySplit line delimiter).map pyStrip).length : Int))) := by
    rintro ⟨_, hle⟩
    omega
  cases reverse with
  | false =>
    simp only [processLine, if_neg hcond, pyIndex, h0, h1]
    rfl
  | true =>
    simp only [processLine, if_neg hcond, pyIndex, h0, h1]
    rfl

/-- Witness for `moses_short_line_tolerated` at the line `"a ||| b"` with
the default columns. -/
theorem moses_short_line_tolerated_witness :
    processLine "a ||| b" false "|||" 5 4 []
      = appendOrErr [] (pySplit "a" " ")
          ⟨pySplit "b" " ", 0, 0, nullAlignmentsOf ((pySplit "a ||| b" "|||").map pyStrip) 4⟩ :=
  moses_short_line_tolerated "a ||| b" "|||" false 5 4 [] (by decide) (by decide)
    "a" "b" (by decide) (by decide)
